import Mathlib

/-!
Shallow embedding of the text-to-form derivation engine of the FabMo
AppMaker (`src/app.jsx`): the section splitter, the `@input` directive
parser, the `@checkmark` parser, the variable extractor, the field
inference engine, value-store reconciliation, the completion evaluator
and the preamble compiler.  All string processing is carried out on
`List Char` so that every definition evaluates inside the kernel.

Host-language numbers are modelled by `JSNum` (a rational for the finite
case, plus the two infinities and NaN); rationals model the decimal
literals that the application's number parsing and rendering deal with.
-/

/-! ### Character classes (models of the regex classes used in app.jsx) -/

/-- The single-quote character, written via its code point. -/
def squote : Char := Char.ofNat 39

/-- The double-quote character, written via its code point. -/
def dquote : Char := Char.ofNat 34

/-- Model of the regex class `\s` (whitespace as matched by the host
regex engine), covering the whitespace characters that can occur in
program text. -/
def isJsWs (c : Char) : Bool :=
  c == ' ' || c == '\t' || c == '\n' || c == '\r' || c == Char.ofNat 11 ||
  c == Char.ofNat 12 || c == Char.ofNat 160 || c == Char.ofNat 0x2028 ||
  c == Char.ofNat 0x2029 || c == Char.ofNat 0xfeff

/-- Line terminators: the characters that the host regex `.` refuses to
match and that end a line for the multiline anchors `^`/`$`. -/
def isTermChar (c : Char) : Bool :=
  c == '\n' || c == '\r' || c == Char.ofNat 0x2028 || c == Char.ofNat 0x2029

/-- `[A-Za-z]`. -/
def isAsciiLetter (c : Char) : Bool :=
  ('A' ≤ c && c ≤ 'Z') || ('a' ≤ c && c ≤ 'z')

/-- `[0-9]`. -/
def isDigitChar (c : Char) : Bool := '0' ≤ c && c ≤ '9'

/-- First character of a variable name: `[A-Za-z]`. -/
def isNameStart (c : Char) : Bool := isAsciiLetter c

/-- Subsequent characters of a variable name: `[A-Za-z0-9_]`. -/
def isNameChar (c : Char) : Bool := isAsciiLetter c || isDigitChar c || c == '_'

/-- The regex class `\w`, as used by the attribute tokenizer. -/
def isWordChar (c : Char) : Bool := isNameChar c

/-- ASCII lowercasing of one character (model of `toLowerCase` on the
identifiers and markers the application compares). -/
def asciiLower (c : Char) : Char :=
  if 'A' ≤ c ∧ c ≤ 'Z' then Char.ofNat (c.toNat + 32) else c

/-- Lowercase a string (model of `String.prototype.toLowerCase`). -/
def lowerStr (s : String) : String := String.mk (s.data.map asciiLower)

/-- Strip leading and trailing whitespace from a character list. -/
def trimChars (cs : List Char) : List Char :=
  ((cs.dropWhile isJsWs).reverse.dropWhile isJsWs).reverse

/-- Model of `String.prototype.trim`. -/
def jsTrim (s : String) : String := String.mk (trimChars s.data)

/-! ### The value model -/

/-- A host-language number: a finite value (modelled exactly by a
rational), one of the two infinities, or NaN. -/
inductive JSNum where
  | fin (q : ℚ)
  | inf
  | negInf
  | nan
deriving DecidableEq, Repr

/-- A host-language value as it can occur in the value store, in a
directive map, or in the externally supplied state. -/
inductive JSVal where
  | vstr (s : String)
  | vnum (n : JSNum)
  | vbool (b : Bool)
  | vnull
  | vundefined
deriving DecidableEq, Repr

/-- `isNaN` on a `JSNum`. -/
def isNaNb : JSNum → Bool
  | .nan => true
  | _ => false

/-- `Number.isFinite` on a `JSNum`. -/
def isFiniteB : JSNum → Bool
  | .fin _ => true
  | _ => false

/-! ### `Number(string)` — the string-to-number conversion -/

/-- Value of a list of decimal digits. -/
def digitsVal (cs : List Char) : Nat :=
  cs.foldl (fun a c => a * 10 + (c.toNat - 48)) 0

/-- `[0-7]`. -/
def isOctDigit (c : Char) : Bool := '0' ≤ c && c ≤ '7'

/-- `[01]`. -/
def isBinDigit (c : Char) : Bool := c == '0' || c == '1'

/-- `[0-9A-Fa-f]`. -/
def isHexDigit (c : Char) : Bool :=
  isDigitChar c || ('a' ≤ asciiLower c && asciiLower c ≤ 'f')

/-- Value of one hex digit. -/
def hexDigitVal (c : Char) : Nat :=
  if isDigitChar c then c.toNat - 48 else (asciiLower c).toNat - 87

/-- Value of a digit list in radix `r`. -/
def radixVal (r : Nat) (cs : List Char) : Nat :=
  cs.foldl (fun a c => a * r + hexDigitVal c) 0

/-- Parse an optional exponent part `e`/`E` followed by an optionally
signed digit string; all characters must be consumed. -/
def parseExpPart (cs : List Char) : Option Int :=
  match cs with
  | [] => some 0
  | c :: rest =>
    if c == 'e' || c == 'E' then
      match rest with
      | '+' :: ds =>
        if ds ≠ [] ∧ ds.all isDigitChar then some (Int.ofNat (digitsVal ds)) else none
      | '-' :: ds =>
        if ds ≠ [] ∧ ds.all isDigitChar then some (-(Int.ofNat (digitsVal ds))) else none
      | ds =>
        if ds ≠ [] ∧ ds.all isDigitChar then some (Int.ofNat (digitsVal ds)) else none
    else none

/-- Parse an unsigned decimal literal (`digits`, `digits.digits`,
`.digits`, `digits.`, each with an optional exponent), returning its
integer mantissa together with a power-of-ten exponent. -/
def parseUnsignedDec (cs : List Char) : Option (Nat × Int) :=
  let ip := cs.takeWhile isDigitChar
  let r1 := cs.dropWhile isDigitChar
  match r1 with
  | '.' :: r2 =>
    let fp := r2.takeWhile isDigitChar
    let r3 := r2.dropWhile isDigitChar
    if ip = [] ∧ fp = [] then none
    else
      match parseExpPart r3 with
      | some e => some (digitsVal (ip ++ fp), e - Int.ofNat fp.length)
      | none => none
  | _ =>
    if ip = [] then none
    else
      match parseExpPart r1 with
      | some e => some (digitsVal ip, e)
      | none => none

/-- Build the rational `± m · 10 ^ e`. -/
def finOf (neg : Bool) (m : Nat) (e : Int) : ℚ :=
  let sgn : Int := if neg then -1 else 1
  if 0 ≤ e then mkRat (sgn * Int.ofNat (m * 10 ^ e.toNat)) 1
  else mkRat (sgn * Int.ofNat m) (10 ^ (-e).toNat)

/-- A signed decimal literal or `Infinity`. -/
def signedNum (neg : Bool) (cs : List Char) : JSNum :=
  if cs = "Infinity".data then (if neg then .negInf else .inf)
  else
    match parseUnsignedDec cs with
    | some (m, e) => .fin (finOf neg m e)
    | none => .nan

/-- A radix-prefixed integer literal body. -/
def radixNum (r : Nat) (pred : Char → Bool) (cs : List Char) : JSNum :=
  if cs ≠ [] ∧ cs.all pred then .fin (mkRat (Int.ofNat (radixVal r cs)) 1) else .nan

/-- An unsigned numeric literal: a radix-prefixed form or a decimal
form (signs are not permitted on radix-prefixed forms). -/
def unsignedNum (cs : List Char) : JSNum :=
  match cs with
  | '0' :: x :: rest =>
    if x == 'x' || x == 'X' then radixNum 16 isHexDigit rest
    else if x == 'o' || x == 'O' then radixNum 8 isOctDigit rest
    else if x == 'b' || x == 'B' then radixNum 2 isBinDigit rest
    else signedNum false cs
  | _ => signedNum false cs

/-- Model of `Number(string)`: trim, empty means zero, otherwise a
(signed) decimal literal, `Infinity`, or a radix-prefixed literal;
anything else is NaN. -/
def strToNumber (s : String) : JSNum :=
  let t := trimChars s.data
  if t = [] then .fin (mkRat 0 1)
  else
    match t with
    | '+' :: rest => signedNum false rest
    | '-' :: rest => signedNum true rest
    | _ => unsignedNum t

/-- Model of `Number(value)` on a general value. -/
def jsToNumber : JSVal → JSNum
  | .vstr s => strToNumber s
  | .vnum n => n
  | .vbool b => .fin (mkRat (if b then 1 else 0) 1)
  | .vnull => .fin (mkRat 0 1)
  | .vundefined => .nan

/-! ### Number-to-string rendering -/

/-- Decimal rendering of a finite number.  Rationals whose denominator
divides a power of ten (the only ones produced by decimal parsing) are
rendered exactly, without trailing zeros; the host's switch to exponent
notation for extreme magnitudes is not modelled. -/
def ratToString (q : ℚ) : String :=
  if q.den = 1 then toString q.num
  else
    match (List.range 400).find? (fun k => q.den ∣ 10 ^ k) with
    | some k =>
      let m : Nat := q.num.natAbs * (10 ^ k / q.den)
      let ipart := m / 10 ^ k
      let fpart := m % 10 ^ k
      let fs := toString fpart
      let fs := String.mk (List.replicate (k - fs.length) '0') ++ fs
      (if q.num < 0 then "-" else "") ++ toString ipart ++ "." ++ fs
    | none => toString q.num ++ "/" ++ toString q.den

/-- `String(number)`. -/
def numToString : JSNum → String
  | .nan => "NaN"
  | .inf => "Infinity"
  | .negInf => "-Infinity"
  | .fin q => ratToString q

/-- `String(value)` as used in template literals. -/
def jsToString : JSVal → String
  | .vstr s => s
  | .vnum n => numToString n
  | .vbool b => if b then "true" else "false"
  | .vnull => "null"
  | .vundefined => "undefined"

/-- General truthiness of a value (`Boolean(v)`). -/
def jsTruthy : JSVal → Bool
  | .vstr s => s != ""
  | .vnum (.fin q) => q != 0
  | .vnum .nan => false
  | .vnum _ => true
  | .vbool b => b
  | .vnull => false
  | .vundefined => false

/-! ### The small coercion helpers of app.jsx -/

/-- `toBool` from app.jsx: booleans pass through, anything else is
stringified, trimmed, lowercased and compared against the accepted
"true" spellings. -/
def toBool (v : JSVal) : Bool :=
  match v with
  | .vbool b => b
  | _ => ["1", "true", "yes", "y", "on"].contains (lowerStr (jsTrim (jsToString v)))

/-- `toNumOrEmpty` from app.jsx: empty/null/undefined stay empty, a
finitely parseable value becomes a number, anything else degrades to
the empty string. -/
def toNumOrEmpty (v : JSVal) : JSVal :=
  if v == .vstr "" || v == .vundefined || v == .vnull then .vstr ""
  else
    match jsToNumber v with
    | .fin q => .vnum (.fin q)
    | _ => .vstr ""

/-! ### Line splitting -/

/-- Split a character list at each newline. -/
def splitNl : List Char → List (List Char)
  | [] => [[]]
  | c :: rest =>
    if c = '\n' then [] :: splitNl rest
    else
      match splitNl rest with
      | l :: ls => (c :: l) :: ls
      | [] => [[c]]

/-- Drop one trailing carriage return. -/
def stripTrailCR (cs : List Char) : List Char :=
  match cs.getLast? with
  | some '\r' => cs.dropLast
  | _ => cs

/-- Model of `code.split(/\r?\n/)`: split at each newline, then remove
the carriage return that immediately preceded the newline. -/
def splitLines (s : String) : List String :=
  (splitNl s.data).map (fun cs => String.mk (stripTrailCR cs))

/-- Split at every line terminator; the segments are the positions at
which the multiline anchors of a `g`/`m` regex scan can match. -/
def splitTerm : List Char → List (List Char)
  | [] => [[]]
  | c :: rest =>
    if isTermChar c then [] :: splitTerm rest
    else
      match splitTerm rest with
      | l :: ls => (c :: l) :: ls
      | [] => [[c]]

/-- The scan segments of a whole text, as character lists. -/
def scanLines (s : String) : List (List Char) := splitTerm s.data

/-! ### Section splitter (`SECTION_HEADER`, `parseSections`) -/

/-- Parse the prefix of a header line: optional whitespace, an optional
comment marker followed by whitespace, then `#`; returns the characters
after the `#`. -/
def headerRest (cs : List Char) : Option (List Char) :=
  match cs.dropWhile isJsWs with
  | c :: rest =>
    if c == squote || c == ';' then
      match rest.dropWhile isJsWs with
      | '#' :: r => some r
      | _ => none
    else if c = '#' then some rest
    else none
  | [] => none

/-- Model of matching one line against
`/^\s*(?:[';]\s*)?#\s*(.+?)\s*$/` and trimming the captured title: the
part after `#` must contain at least one character the regex `.` can
consume once surrounding whitespace is stripped; a title consisting of
whitespace only still matches (trimming to the empty title) as long as
some whitespace character is not a line terminator. -/
def matchHeader (line : String) : Option String :=
  match headerRest line.data with
  | none => none
  | some rest =>
    let core := trimChars rest
    if core ≠ [] then
      if core.any isTermChar then none else some (String.mk core)
    else if rest.any (fun c => !(isTermChar c)) then some "" else none

/-- Positions and titles of all header lines, in order. -/
def findHeaders : List String → Nat → List (Nat × String)
  | [], _ => []
  | l :: rest, i =>
    match matchHeader l with
    | some t => (i, t) :: findHeaders rest (i + 1)
    | none => findHeaders rest (i + 1)

/-- A section as returned by `parseSections` (`end` is a reserved word,
so the exclusive end line is called `stop`). -/
structure Sec where
  id : String
  title : String
  start : Nat
  stop : Nat
  text : String
deriving DecidableEq, Repr

/-- `lines.slice(a, b).join("\n")`. -/
def sliceJoin (lines : List String) (a b : Nat) : String :=
  String.intercalate "\n" ((lines.drop a).take (b - a))

/-- The section generated for one header: it runs from the line after
the header to the next header (exclusive) or to the end of the text. -/
def secFor (lines : List String) (n i l : Nat) (t : String)
    (rest : List (Nat × String)) : Sec :=
  let e := match rest with | [] => n | (l2, _) :: _ => l2
  { id := "sec" ++ toString i, title := t, start := l + 1, stop := e,
    text := sliceJoin lines (l + 1) e }

/-- Build the section list from the header list. -/
def mkSections (lines : List String) (n : Nat) : Nat → List (Nat × String) → List Sec
  | _, [] => []
  | i, (l, t) :: rest => secFor lines n i l t rest :: mkSections lines n (i + 1) rest

/-- `parseSections` from app.jsx. -/
def parseSections (code : String) : List Sec :=
  let lines := splitLines code
  let headers := findHeaders lines 0
  if headers = [] then
    [{ id := "sec0", title := "Main", start := 0, stop := lines.length, text := code }]
  else mkSections lines lines.length 0 headers

/-! ### Generic association-list operations (host object model) -/

/-- Lookup by key in an association list (host object property read). -/
def lookupKV {α : Type} : List (String × α) → String → Option α
  | [], _ => none
  | (k2, v) :: rest, k => if k2 = k then some v else lookupKV rest k

/-- Assign a key in an association list, updating in place or appending
(host object property write, preserving key order). -/
def setVal {α : Type} : List (String × α) → String → α → List (String × α)
  | [], k, v => [(k, v)]
  | (k2, v2) :: rest, k, v =>
    if k2 = k then (k2, v) :: rest else (k2, v2) :: setVal rest k v

/-! ### Checkmark parser (`CHECKMARK_REGEX`, `parseCheckmarksIn`) -/

/-- Case-insensitively strip a literal (given lowercase) prefix. -/
def stripCI (pat : List Char) (cs : List Char) : Option (List Char) :=
  if (cs.take pat.length).map asciiLower = pat then some (cs.drop pat.length)
  else none

/-- Split the optional sigil prefix `&?\$?` off a token: the matched
sigil characters (greedily, `&` before `$`) and the remainder. -/
def sigilSplit : List Char → List Char × List Char
  | '&' :: '$' :: r => (['&', '$'], r)
  | '&' :: r => (['&'], r)
  | '$' :: r => (['$'], r)
  | r => ([], r)

/-- Match one scan segment against
`/^\s*[';]\s*@checkmark\s+(&?\$?[A-Za-z][A-Za-z0-9_]*)\s*$/i` and
return the raw captured token. -/
def lineCheckmark (seg : List Char) : Option String :=
  match seg.dropWhile isJsWs with
  | c :: rest =>
    if c == squote || c == ';' then
      match stripCI "@checkmark".data (rest.dropWhile isJsWs) with
      | some cs3 =>
        match cs3 with
        | w :: _ =>
          if isJsWs w then
            match sigilSplit (cs3.dropWhile isJsWs) with
            | (sig, d :: r) =>
              if isNameStart d then
                if (r.dropWhile isNameChar).all isJsWs then
                  some (String.mk (sig ++ d :: r.takeWhile isNameChar))
                else none
              else none
            | (_, []) => none
          else none
        | [] => none
      | none => none
    else none
  | [] => none

/-- `raw.replace(/^[$&]/, "")`: strip one leading sigil. -/
def stripSigil (raw : String) : String :=
  match raw.data with
  | c :: rest => if c == '$' || c == '&' then String.mk rest else raw
  | [] => raw

/-- `parseCheckmarksIn` from app.jsx: collect, in order, the normalized
name from every line matching the checkmark pattern. -/
def parseCheckmarksIn (text : String) : List String :=
  (scanLines text).foldl
    (fun acc seg =>
      match lineCheckmark seg with
      | some raw => acc ++ [stripSigil (jsTrim raw)]
      | none => acc) []

/-! ### Directive parser (`DIRECTIVE_REGEX`, `parseDirectivesIn`) -/

/-- Match one scan segment against
`/^\s*[';]\s*@input\s+(&[A-Za-z][A-Za-z0-9_]*)\s+([^\r\n]*)/i`,
returning the variable name (sigil stripped) and the attribute tail. -/
def matchDirective (seg : List Char) : Option (String × List Char) :=
  match seg.dropWhile isJsWs with
  | c :: rest =>
    if c == squote || c == ';' then
      match stripCI "@input".data (rest.dropWhile isJsWs) with
      | some cs3 =>
        match cs3 with
        | w :: _ =>
          if isJsWs w then
            match cs3.dropWhile isJsWs with
            | '&' :: d :: r =>
              if isNameStart d then
                match r.dropWhile isNameChar with
                | w2 :: rest3 =>
                  if isJsWs w2 then
                    some (String.mk (d :: r.takeWhile isNameChar),
                      (w2 :: rest3).dropWhile isJsWs)
                  else none
                | [] => none
              else none
            | _ => none
          else none
        | [] => none
      | none => none
    else none
  | [] => none

/-- Strip a matching pair of surrounding quotes
(`val.slice(1, -1)` under the `startsWith`/`endsWith` test). -/
def stripQuotes (s : String) : String :=
  match s.data with
  | c :: _ =>
    if (c == dquote && s.data.getLast? == some dquote) ||
       (c == squote && s.data.getLast? == some squote) then
      String.mk ((s.data.drop 1).dropLast)
    else s
  | [] => s

/-- One attribute value: a double-quoted token, a single-quoted token,
or a bare token running to the next whitespace; returns the token as
matched (quotes included) and the remaining input. -/
def attrVal (cs : List Char) : Option (String × List Char) :=
  let bare : Option (String × List Char) :=
    let tok := cs.takeWhile (fun d => !(isJsWs d))
    if tok = [] then none else some (String.mk tok, cs.dropWhile (fun d => !(isJsWs d)))
  match cs with
  | c :: rest =>
    if c = dquote then
      match rest.dropWhile (fun d => d ≠ dquote) with
      | _ :: r2 => some (String.mk (dquote :: rest.takeWhile (fun d => d ≠ dquote) ++ [dquote]), r2)
      | [] => bare
    else if c = squote then
      match rest.dropWhile (fun d => d ≠ squote) with
      | _ :: r2 => some (String.mk (squote :: rest.takeWhile (fun d => d ≠ squote) ++ [squote]), r2)
      | [] => bare
    else bare
  | [] => none

/-- Scan an attribute tail for `key=value` pairs
(`/(\w+)=(("[^"]*")|('[^']*')|[^\s]+)/g`), in match order; `fuel`
bounds the scan (one unit per scan step suffices). -/
def attrPairs : Nat → List Char → List (String × String)
  | 0, _ => []
  | _, [] => []
  | fuel + 1, c :: rest =>
    if isWordChar c then
      let key := c :: rest.takeWhile isWordChar
      match rest.dropWhile isWordChar with
      | '=' :: r2 =>
        match attrVal r2 with
        | some (tok, r3) => (String.mk key, stripQuotes tok) :: attrPairs fuel r3
        | none => attrPairs fuel rest
      | _ => attrPairs fuel rest
    else attrPairs fuel rest

/-- A directive attribute map. -/
abbrev Cfg := List (String × String)

/-- Parse the attribute tail of one directive into its map
(later assignments to the same key overwrite earlier ones). -/
def parseAttrs (tail : List Char) : Cfg :=
  (attrPairs (tail.length + 1) tail).foldl (fun m kv => setVal m kv.1 kv.2) []

/-- `parseDirectivesIn` from app.jsx: scan every line for a directive
and build the variable-to-attributes map, last directive winning. -/
def parseDirectivesIn (text : String) : List (String × Cfg) :=
  (scanLines text).foldl
    (fun m seg =>
      match matchDirective seg with
      | some (v, tail) => setVal m v (parseAttrs tail)
      | none => m) []

/-! ### Variable extractor (`VAR_REGEX`, `extractVariables`) -/

/-- Length of a `dropWhile` result never exceeds the input length. -/
theorem length_dropWhile_le' (p : Char → Bool) (l : List Char) :
    (l.dropWhile p).length ≤ l.length := by
  induction l with
  | nil => simp [List.dropWhile]
  | cons c rest ih =>
    by_cases h : p c
    · simp only [List.dropWhile, h]
      exact Nat.le_succ_of_le ih
    · simp [List.dropWhile, h]

/-- All matches of `/&([A-Za-z][A-Za-z0-9_]*)/g`, in order, duplicates
included. -/
def scanVars (cs : List Char) : List String :=
  match cs with
  | [] => []
  | c :: rest =>
    if c = '&' then
      match rest with
      | [] => []
      | c2 :: rest2 =>
        if isNameStart c2 then
          String.mk (c2 :: rest2.takeWhile isNameChar) :: scanVars (rest2.dropWhile isNameChar)
        else scanVars (c2 :: rest2)
    else scanVars rest
termination_by cs.length
decreasing_by
  all_goals
    first
      | (simp only [List.length_cons]; omega)
      | (refine Nat.lt_of_le_of_lt (length_dropWhile_le' _ _) ?_
         simp only [List.length_cons]; omega)

/-- Keep the first occurrence of each element (insertion order of a
`Set`). -/
def dedupGo : List String → List String → List String
  | _, [] => []
  | seen, x :: rest =>
    if x ∈ seen then dedupGo seen rest else x :: dedupGo (x :: seen) rest

/-- `extractVariables` from app.jsx: the distinct referenced variable
names in first-occurrence order. -/
def extractVariables (code : String) : List String :=
  dedupGo [] (scanVars code.data)

/-! ### Field inference (`inferField`) -/

/-- Does `sub` occur as a contiguous substring of `cs`? -/
def containsSub (sub : List Char) (cs : List Char) : Bool :=
  sub.isPrefixOf cs ||
    match cs with
    | [] => false
    | _ :: rest => containsSub sub rest

/-- The numeric-quantity name heuristic:
`/(diameter|radius|depth|height|width|speed|feed|x|y|z|angle|thickness|step|offset|distance|length)/`
tested against the lowercased variable name. -/
def numericHint (n : String) : Bool :=
  ["diameter", "radius", "depth", "height", "width", "speed", "feed", "x", "y",
   "z", "angle", "thickness", "step", "offset", "distance", "length"].any
    (fun w => containsSub w.data n.data)

/-- The boolean-intent name heuristic: `/^(use|enable|flag|do|is_)/`
tested against the lowercased variable name. -/
def boolHint (n : String) : Bool :=
  ["use", "enable", "flag", "do", "is_"].any (fun w => w.data.isPrefixOf n.data)

/-- Split a string on `/\s*,\s*/`: whitespace adjacent to each comma is
consumed by the separator. -/
def splitComma : List Char → List (List Char)
  | [] => [[]]
  | c :: rest =>
    if c = ',' then [] :: splitComma rest
    else
      match splitComma rest with
      | l :: ls => (c :: l) :: ls
      | [] => [[c]]

/-- Trim trailing whitespace only. -/
def trimRightChars (cs : List Char) : List Char :=
  (cs.reverse.dropWhile isJsWs).reverse

/-- After the first comma-separated piece: middles lose whitespace on
both sides, the final piece loses leading whitespace only. -/
def splitCommaRest : List (List Char) → List String
  | [] => []
  | [y] => [String.mk (y.dropWhile isJsWs)]
  | y :: ys => String.mk (trimChars y) :: splitCommaRest ys

/-- `String(v).split(/\s*,\s*/)`. -/
def splitCommaWS (s : String) : List String :=
  match splitComma s.data with
  | [] => []
  | [x] => [String.mk x]
  | x :: xs => String.mk (trimRightChars x) :: splitCommaRest xs

/-- A derived field descriptor (the result of `inferField`). -/
structure FieldDesc where
  type : String
  label : String
  default : JSVal
  options : Option (List String)
  min : Option JSNum
  max : Option JSNum
  step : Option JSNum
  placeholder : Option String
deriving DecidableEq, Repr

/-- Is a (string-valued) attribute falsy, i.e. absent or empty? -/
def strFalsy : Option String → Bool
  | none => true
  | some s => s == ""

/-- `inferField` from app.jsx. -/
def inferField (varName : String) (cfg : Cfg) : FieldDesc :=
  let ctype := lookupKV cfg "type"
  let type0 := match ctype with
    | some s => if s = "" then "text" else s
    | none => "text"
  let ty :=
    if strFalsy ctype then
      let n := lowerStr varName
      if numericHint n then "number"
      else if boolHint n then "checkbox"
      else type0
    else type0
  let label := match lookupKV cfg "label" with
    | some s => if s = "" then varName else s
    | none => varName
  let d0 : JSVal := .vstr ((lookupKV cfg "default").getD "")
  let d : JSVal :=
    if ty = "checkbox" then .vbool (toBool d0)
    else if ty = "number" then toNumOrEmpty d0
    else d0
  let options := match lookupKV cfg "options" with
    | some s => if s = "" then none else some (splitCommaWS s)
    | none => none
  { type := ty, label := label, default := d, options := options,
    min := (lookupKV cfg "min").map (fun s => strToNumber s),
    max := (lookupKV cfg "max").map (fun s => strToNumber s),
    step := (lookupKV cfg "step").map (fun s => strToNumber s),
    placeholder := lookupKV cfg "placeholder" }

/-! ### Section model builder -/

/-- A field of a section model: `{ name, ...inferField(name, cfg) }`. -/
structure VarField where
  name : String
  type : String
  label : String
  default : JSVal
  options : Option (List String)
  min : Option JSNum
  max : Option JSNum
  step : Option JSNum
  placeholder : Option String
deriving DecidableEq, Repr

/-- Build a field from a variable name and its directive attributes. -/
def mkField (v : String) (cfg : Cfg) : VarField :=
  let fd := inferField v cfg
  { name := v, type := fd.type, label := fd.label, default := fd.default,
    options := fd.options, min := fd.min, max := fd.max, step := fd.step,
    placeholder := fd.placeholder }

/-- A section model: the section plus its directive map, field list and
checkmark variable list. -/
structure SectionModel where
  id : String
  title : String
  start : Nat
  stop : Nat
  text : String
  directives : List (String × Cfg)
  fields : List VarField
  checkVars : List String
deriving DecidableEq, Repr

/-- Compose the parsers into one section's model. -/
def buildModel (s : Sec) : SectionModel :=
  let directives := parseDirectivesIn s.text
  let vars := extractVariables s.text
  let fields := vars.map (fun v => mkField v ((lookupKV directives v).getD []))
  { id := s.id, title := s.title, start := s.start, stop := s.stop,
    text := s.text, directives := directives, fields := fields,
    checkVars := parseCheckmarksIn s.text }

/-- The `sectionModels` memo of the main component. -/
def sectionModels (code : String) : List SectionModel :=
  (parseSections code).map buildModel

/-! ### Value store and reconciliation -/

/-- The value store: a flat mapping from `"sectionId::variableName"`
composite keys to values. -/
abbrev Store := List (String × JSVal)

/-- `keyFor` from app.jsx. -/
def keyFor (secId varName : String) : String := secId ++ "::" ++ varName

/-- The emptiness test of the reconciliation effect:
`!(k in next) || next[k] === "" || next[k] === null || next[k] === undefined`. -/
def isEmptyVal : Option JSVal → Bool
  | none => true
  | some v => v == .vstr "" || v == .vnull || v == .vundefined

/-- The default written by reconciliation:
`f.type === "checkbox" ? (f.default ?? false) : (f.default ?? "")`. -/
def defaultFor (f : VarField) : JSVal :=
  if f.type = "checkbox" then
    match f.default with
    | .vnull => .vbool false
    | .vundefined => .vbool false
    | v => v
  else
    match f.default with
    | .vnull => .vstr ""
    | .vundefined => .vstr ""
    | v => v

/-- All `(key, default)` pairs of a model list, in iteration order. -/
def fieldPairs (models : List SectionModel) : List (String × JSVal) :=
  models.flatMap (fun sec => sec.fields.map (fun f => (keyFor sec.id f.name, defaultFor f)))

/-- Write the default into a store cell if the cell is empty. -/
def setIfEmpty (st : Store) (k : String) (d : JSVal) : Store :=
  if isEmptyVal (lookupKV st k) then setVal st k d else st

/-- The reconciliation effect of app.jsx: insert defaults for empty or
missing cells of current fields, then delete every key that no current
field names. -/
def reconcile (models : List SectionModel) (prev : Store) : Store :=
  let pairs := fieldPairs models
  let valid := pairs.map Prod.fst
  let next := pairs.foldl (fun st p => setIfEmpty st p.1 p.2) prev
  next.filter (fun e => valid.contains e.1)

/-! ### Completion evaluator (`isSectionComplete`) -/

/-- `isSectionComplete` from app.jsx, with the externally supplied
configuration variables passed explicitly. -/
def isSectionComplete (sec : SectionModel) (configVars : Store) : Bool :=
  if sec.checkVars.isEmpty then false
  else
    sec.checkVars.any (fun name =>
      match lookupKV configVars name with
      | none => false
      | some v =>
        if v == .vundefined || v == .vnull then false
        else
          match jsToNumber v with
          | .fin q => q != 0
          | _ => jsTruthy v)

/-! ### Preamble compiler (`buildPreambleForSection`) -/

/-- `hasVal` from app.jsx: `v !== "" && v !== null && v !== undefined`
(an absent store cell reads as undefined). -/
def hasVal : Option JSVal → Bool
  | none => false
  | some v => !(v == .vstr "") && !(v == .vnull) && !(v == .vundefined)

/-- `.replace(/"/g, '""')`: double every double quote. -/
def doubleQuotes (s : String) : String :=
  String.mk (s.data.flatMap (fun c => if c = dquote then [dquote, dquote] else [c]))

/-- The falsy-or of two strings (`a || b`). -/
def jsOrStr (a b : String) : String := if a = "" then b else a

/-- `buildPreambleForSection` from app.jsx: one statement per field, a
DIALOG prompt for absent values, otherwise an assignment rendered by
field type. -/
def buildPreambleForSection (sec : SectionModel) (values : Store) : List String :=
  sec.fields.map (fun f =>
    let val := lookupKV values (keyFor sec.id f.name)
    let cfg := (lookupKV sec.directives f.name).getD []
    let promptMsg :=
      doubleQuotes (jsOrStr ((lookupKV cfg "prompt").getD "")
        ("Please input " ++ jsOrStr f.label f.name))
    if hasVal val = false then "DIALOG \"" ++ promptMsg ++ "\", &" ++ f.name
    else
      match val with
      | none => "DIALOG \"" ++ promptMsg ++ "\", &" ++ f.name
      | some v =>
        if f.type = "number" ∧ isNaNb (jsToNumber v) = false then
          "&" ++ f.name ++ " = " ++ jsToString v
        else if f.type = "checkbox" then
          "&" ++ f.name ++ " = " ++ (if jsTruthy v then "1" else "0")
        else
          "&" ++ f.name ++ " = \"" ++ doubleQuotes (jsToString v) ++ "\"")

/-! ### Lemmas about store cells and reconciliation -/

/-- The effect of one reconciliation visit on one cell. -/
def stepVal (o : Option JSVal) (d : JSVal) : Option JSVal :=
  if isEmptyVal o then some d else o

theorem isEmptyVal_some_iff (v : JSVal) :
    isEmptyVal (some v) = true ↔ v = .vstr "" ∨ v = .vnull ∨ v = .vundefined := by
  simp [isEmptyVal, or_assoc]

theorem lookupKV_setVal_self {α : Type} (st : List (String × α)) (k : String) (v : α) :
    lookupKV (setVal st k v) k = some v := by
  induction st with
  | nil => simp [setVal, lookupKV]
  | cons e rest ih =>
    obtain ⟨k2, v2⟩ := e
    by_cases h : k2 = k
    · simp [setVal, lookupKV, h]
    · simp [setVal, lookupKV, h, ih]

theorem lookupKV_setVal_ne {α : Type} (st : List (String × α)) (k k' : String) (v : α)
    (h : k ≠ k') : lookupKV (setVal st k v) k' = lookupKV st k' := by
  induction st with
  | nil => simp [setVal, lookupKV, h]
  | cons e rest ih =>
    obtain ⟨k2, v2⟩ := e
    by_cases h2 : k2 = k
    · subst h2; simp [setVal, lookupKV, h]
    · simp [setVal, lookupKV, h2, ih]

theorem setVal_eq_self {α : Type} (st : List (String × α)) (k : String) (v : α)
    (h : lookupKV st k = some v) : setVal st k v = st := by
  induction st with
  | nil => simp [lookupKV] at h
  | cons e rest ih =>
    obtain ⟨k2, v2⟩ := e
    by_cases h2 : k2 = k
    · subst h2
      simp [lookupKV] at h
      simp [setVal, h]
    · simp only [lookupKV, if_neg h2] at h
      simp [setVal, h2, ih h]

theorem lookupKV_setIfEmpty_self (st : Store) (k : String) (d : JSVal) :
    lookupKV (setIfEmpty st k d) k = stepVal (lookupKV st k) d := by
  unfold setIfEmpty stepVal
  by_cases h : isEmptyVal (lookupKV st k)
  · simp [h, lookupKV_setVal_self]
  · simp [h]

theorem lookupKV_setIfEmpty_ne (st : Store) (k k' : String) (d : JSVal) (h : k ≠ k') :
    lookupKV (setIfEmpty st k d) k' = lookupKV st k' := by
  unfold setIfEmpty
  by_cases h2 : isEmptyVal (lookupKV st k)
  · simp [h2, lookupKV_setVal_ne _ _ _ _ h]
  · simp [h2]

/-- Per-cell decomposition of the insertion phase of reconciliation. -/
theorem lookupKV_foldl_setIfEmpty (P : List (String × JSVal)) (st : Store) (k : String) :
    lookupKV (P.foldl (fun s p => setIfEmpty s p.1 p.2) st) k
      = (P.filterMap (fun p => if p.1 = k then some p.2 else none)).foldl
          stepVal (lookupKV st k) := by
  induction P generalizing st with
  | nil => simp
  | cons p rest ih =>
    obtain ⟨k1, d⟩ := p
    by_cases h : k1 = k
    · subst h
      rw [List.foldl_cons, ih, lookupKV_setIfEmpty_self]
      simp [List.filterMap_cons]
    · rw [List.foldl_cons, ih, lookupKV_setIfEmpty_ne _ _ _ _ h]
      simp [List.filterMap_cons, h]

theorem foldl_stepVal_of_not_empty (ds : List JSVal) (o : Option JSVal)
    (h : isEmptyVal o = false) : ds.foldl stepVal o = o := by
  induction ds with
  | nil => rfl
  | cons d rest ih => simp [stepVal, h, ih]

theorem stepVal_isSome (o : Option JSVal) (d : JSVal) : ∃ w, stepVal o d = some w := by
  unfold stepVal
  by_cases h : isEmptyVal o
  · exact ⟨d, by simp [h]⟩
  · cases o with
    | none => simp [isEmptyVal] at h
    | some v => exact ⟨v, by simp [h]⟩

theorem foldl_stepVal_ne_none (ds : List JSVal) (o : Option JSVal) (h : ds ≠ []) :
    ds.foldl stepVal o ≠ none := by
  cases ds with
  | nil => exact absurd rfl h
  | cons d rest =>
    clear h
    simp only [List.foldl_cons]
    obtain ⟨w, hw⟩ := stepVal_isSome o d
    rw [hw]; clear hw
    induction rest generalizing w with
    | nil => simp
    | cons d2 rest2 ih =>
      simp only [List.foldl_cons]
      obtain ⟨w2, hw2⟩ := stepVal_isSome (some w) d2
      rw [hw2]
      exact ih w2

theorem foldl_stepVal_empty (ds : List JSVal) (o : Option JSVal)
    (h : isEmptyVal (ds.foldl stepVal o) = true) :
    isEmptyVal o = true ∧ ∀ d ∈ ds, isEmptyVal (some d) = true := by
  induction ds generalizing o with
  | nil => exact ⟨h, by simp⟩
  | cons d rest ih =>
    simp only [List.foldl_cons] at h
    obtain ⟨h1, h2⟩ := ih (stepVal o d) h
    by_cases ho : isEmptyVal o
    · have hd : stepVal o d = some d := by simp [stepVal, ho]
      rw [hd] at h1
      refine ⟨ho, ?_⟩
      intro x hx
      rcases List.mem_cons.mp hx with h3 | h3
      · subst h3; exact h1
      · exact h2 x h3
    · have hd : stepVal o d = o := by simp [stepVal, ho]
      rw [hd] at h1
      exact absurd h1 (by simp [ho])

theorem foldl_stepVal_const (ds : List JSVal) (o : Option JSVal)
    (ho : isEmptyVal o = true) (hds : ∀ d ∈ ds, d = .vstr "") (hne : ds ≠ []) :
    ds.foldl stepVal o = some (.vstr "") := by
  induction ds generalizing o with
  | nil => exact absurd rfl hne
  | cons d rest ih =>
    have hd : d = .vstr "" := hds d (by simp)
    subst hd
    have hstep : stepVal o (.vstr "") = some (.vstr "") := by simp [stepVal, ho]
    simp only [List.foldl_cons, hstep]
    cases rest with
    | nil => rfl
    | cons d2 rest2 =>
      exact ih (some (.vstr "")) (by simp [isEmptyVal]) (fun x hx => hds x (by simp [hx]))
        (by simp)

theorem foldl_stepVal_not_undefined (ds : List JSVal) (o : Option JSVal)
    (hds : ∀ d ∈ ds, d ≠ .vundefined) (hne : ds ≠ []) :
    ds.foldl stepVal o ≠ some .vundefined := by
  induction ds generalizing o with
  | nil => exact absurd rfl hne
  | cons d rest ih =>
    simp only [List.foldl_cons]
    cases rest with
    | nil =>
      simp only [List.foldl_nil]
      unfold stepVal
      by_cases ho : isEmptyVal o
      · simp only [ho, if_pos]
        intro hc
        exact hds d (by simp) (Option.some.injEq .. ▸ hc)
      · simp only [ho]
        intro hc
        rw [if_neg (by simp [ho])] at hc
        rw [hc] at ho
        simp [isEmptyVal] at ho
    | cons d2 rest2 =>
      exact ih (stepVal o d) (fun x hx => hds x (by simp [hx])) (by simp)

theorem foldl_setIfEmpty_fixpoint (P : List (String × JSVal)) (st : Store)
    (h : ∀ p ∈ P, isEmptyVal (lookupKV st p.1) = true → lookupKV st p.1 = some p.2) :
    P.foldl (fun s p => setIfEmpty s p.1 p.2) st = st := by
  induction P with
  | nil => rfl
  | cons p rest ih =>
    obtain ⟨k, d⟩ := p
    have hstep : setIfEmpty st k d = st := by
      unfold setIfEmpty
      by_cases he : isEmptyVal (lookupKV st k)
      · rw [if_pos he]
        exact setVal_eq_self _ _ _ (h (k, d) (by simp) he)
      · rw [if_neg he]
    simp only [List.foldl_cons, hstep]
    exact ih (fun q hq => h q (by simp [hq]))

theorem lookupKV_filter_key (st : Store) (f : String → Bool) (k : String) :
    lookupKV (st.filter (fun e => f e.1)) k
      = if f k = true then lookupKV st k else none := by
  induction st with
  | nil => simp [lookupKV]
  | cons e rest ih =>
    obtain ⟨k2, v2⟩ := e
    by_cases h2 : k2 = k
    · subst h2
      by_cases hf : f k2
      · simp [List.filter, hf, lookupKV, ih]
      · simp [List.filter, hf, lookupKV, ih]
    · by_cases hf : f k2
      · simp [List.filter, hf, lookupKV, h2, ih]
      · simp [List.filter, hf, lookupKV, h2, ih]

theorem fieldPairs_not_nullish (models : List SectionModel) (p : String × JSVal)
    (h : p ∈ fieldPairs models) : p.2 ≠ .vnull ∧ p.2 ≠ .vundefined := by
  unfold fieldPairs at h
  obtain ⟨sec, _, hmem⟩ := List.mem_flatMap.mp h
  obtain ⟨f, _, hf⟩ := List.mem_map.mp hmem
  have : p.2 = defaultFor f := by rw [← hf]
  rw [this]
  unfold defaultFor
  by_cases ht : f.type = "checkbox" <;> cases hd : f.default <;> simp [ht, hd]

theorem contains_eq_true_iff (l : List String) (a : String) :
    l.contains a = true ↔ a ∈ l := by simp

theorem reconcile_eq (models : List SectionModel) (prev : Store) :
    reconcile models prev
      = ((fieldPairs models).foldl (fun st p => setIfEmpty st p.1 p.2) prev).filter
          (fun e => ((fieldPairs models).map Prod.fst).contains e.1) := rfl

theorem lookupKV_reconcile (models : List SectionModel) (prev : Store) (k : String) :
    lookupKV (reconcile models prev) k
      = if ((fieldPairs models).map Prod.fst).contains k = true then
          ((fieldPairs models).filterMap
              (fun p => if p.1 = k then some p.2 else none)).foldl
            stepVal (lookupKV prev k)
        else none := by
  rw [reconcile_eq, lookupKV_filter_key, lookupKV_foldl_setIfEmpty]

theorem mem_fieldPairs (models : List SectionModel) (sec : SectionModel) (f : VarField)
    (hs : sec ∈ models) (hf : f ∈ sec.fields) :
    (keyFor sec.id f.name, defaultFor f) ∈ fieldPairs models := by
  unfold fieldPairs
  exact List.mem_flatMap.mpr ⟨sec, hs, List.mem_map.mpr ⟨f, hf, rfl⟩⟩

theorem mem_fieldPairs_keys (models : List SectionModel) (k : String) :
    k ∈ (fieldPairs models).map Prod.fst
      ↔ ∃ sec, sec ∈ models ∧ ∃ f, f ∈ sec.fields ∧ keyFor sec.id f.name = k := by
  unfold fieldPairs
  constructor
  · intro h
    obtain ⟨p, hp, hpk⟩ := List.mem_map.mp h
    obtain ⟨sec, hs, hmem⟩ := List.mem_flatMap.mp hp
    obtain ⟨f, hf, hfp⟩ := List.mem_map.mp hmem
    exact ⟨sec, hs, f, hf, by rw [← hpk, ← hfp]⟩
  · rintro ⟨sec, hs, f, hf, rfl⟩
    exact List.mem_map.mpr ⟨(keyFor sec.id f.name, defaultFor f),
      List.mem_flatMap.mpr ⟨sec, hs, List.mem_map.mpr ⟨f, hf, rfl⟩⟩, rfl⟩

theorem filterMap_key_of_not_mem (P : List (String × JSVal)) (k : String)
    (h : k ∉ P.map Prod.fst) :
    P.filterMap (fun p => if p.1 = k then some p.2 else none) = [] := by
  induction P with
  | nil => rfl
  | cons p rest ih =>
    obtain ⟨k1, d⟩ := p
    have hk1 : k1 ≠ k := by
      intro hc; exact h (by simp [hc])
    simp only [List.filterMap_cons, if_neg hk1]
    exact ih (fun hc => h (by simp [List.mem_map] at hc ⊢; tauto))

theorem filterMap_key_nodup (P : List (String × JSVal)) (k : String) (d : JSVal)
    (hnd : (P.map Prod.fst).Nodup) (h : (k, d) ∈ P) :
    P.filterMap (fun p => if p.1 = k then some p.2 else none) = [d] := by
  induction P with
  | nil => simp at h
  | cons p rest ih =>
    obtain ⟨k1, d1⟩ := p
    simp only [List.map_cons, List.nodup_cons] at hnd
    obtain ⟨hk1, hndrest⟩ := hnd
    rcases List.mem_cons.mp h with hhead | htail
    · have hk : k = k1 := congrArg Prod.fst hhead
      have hd : d = d1 := congrArg Prod.snd hhead
      subst hk; subst hd
      simp [List.filterMap_cons, filterMap_key_of_not_mem rest k hk1]
    · have hkmem : k ∈ rest.map Prod.fst := List.mem_map_of_mem _ htail
      have hk1k : k1 ≠ k := by
        intro hc; subst hc; exact hk1 hkmem
      simp only [List.filterMap_cons, if_neg hk1k]
      exact ih hndrest htail

theorem defaultFor_eq_default (f : VarField)
    (h1 : f.default ≠ .vnull) (h2 : f.default ≠ .vundefined) : defaultFor f = f.default := by
  unfold defaultFor
  by_cases ht : f.type = "checkbox" <;> cases hd : f.default <;> simp_all

/-- Elements selected from the field pairs for one key are never null
or undefined, so an "empty" one can only be the empty string. -/
theorem key_defaults_empty_str (models : List SectionModel) (k : String) (d : JSVal)
    (hd : d ∈ (fieldPairs models).filterMap (fun p => if p.1 = k then some p.2 else none))
    (hempty : isEmptyVal (some d) = true) : d = .vstr "" := by
  obtain ⟨q, hq, hqd⟩ := List.mem_filterMap.mp hd
  by_cases hqk : q.1 = k
  · rw [if_pos hqk] at hqd
    injection hqd with hqd
    have hnn := fieldPairs_not_nullish models q hq
    rw [hqd] at hnn
    rcases (isEmptyVal_some_iff d).mp hempty with h | h | h
    · exact h
    · exact absurd h hnn.1
    · exact absurd h hnn.2
  · rw [if_neg hqk] at hqd
    exact absurd hqd (by simp)

/-- C7: applying reconciliation twice in a row against the same model
list produces exactly the same store contents (key order included) as
applying it once. -/
theorem reconcile_idempotent (models : List SectionModel) (prev : Store) :
    reconcile models (reconcile models prev) = reconcile models prev := by
  have hfix : (fieldPairs models).foldl (fun s p => setIfEmpty s p.1 p.2)
      (reconcile models prev) = reconcile models prev := by
    apply foldl_setIfEmpty_fixpoint
    intro p hp hempty
    have hkmem : p.1 ∈ (fieldPairs models).map Prod.fst := List.mem_map_of_mem _ hp
    have hcon : ((fieldPairs models).map Prod.fst).contains p.1 = true :=
      (contains_eq_true_iff _ _).mpr hkmem
    have hlook : lookupKV (reconcile models prev) p.1
        = ((fieldPairs models).filterMap
            (fun q => if q.1 = p.1 then some q.2 else none)).foldl
          stepVal (lookupKV prev p.1) := by
      rw [lookupKV_reconcile, if_pos hcon]
    have hds_mem : p.2 ∈ (fieldPairs models).filterMap
        (fun q => if q.1 = p.1 then some q.2 else none) :=
      List.mem_filterMap.mpr ⟨p, hp, by simp⟩
    have hne : (fieldPairs models).filterMap
        (fun q => if q.1 = p.1 then some q.2 else none) ≠ [] := by
      intro hnil; rw [hnil] at hds_mem; simp at hds_mem
    rw [hlook] at hempty ⊢
    obtain ⟨ho, hall⟩ := foldl_stepVal_empty _ _ hempty
    have hallstr : ∀ d ∈ (fieldPairs models).filterMap
        (fun q => if q.1 = p.1 then some q.2 else none), d = .vstr "" :=
      fun d hd => key_defaults_empty_str models p.1 d hd (hall d hd)
    rw [foldl_stepVal_const _ _ ho hallstr hne]
    rw [hallstr p.2 hds_mem]
  have hrfilter : (reconcile models prev).filter
      (fun e => ((fieldPairs models).map Prod.fst).contains e.1) = reconcile models prev := by
    apply List.filter_eq_self.mpr
    intro e he
    rw [reconcile_eq] at he
    exact (List.mem_filter.mp he).2
  rw [reconcile_eq models (reconcile models prev), hfix, hrfilter]

/-- C1: after reconciling the store against a model list (with distinct
field keys and non-nullish field defaults, as the model builder always
produces), (a) a field key whose prior cell was absent or empty now
holds the field's default, (b) a key named by no current field is gone,
(c) a field key with a non-empty prior value keeps it unchanged, and
(d) every field key holds a non-undefined entry. -/
theorem valueStore_reconciliation
    (models : List SectionModel) (prev : Store)
    (hnd : ((fieldPairs models).map Prod.fst).Nodup)
    (hdfl : ∀ sec ∈ models, ∀ f ∈ sec.fields,
      f.default ≠ JSVal.vnull ∧ f.default ≠ JSVal.vundefined) :
    (∀ sec ∈ models, ∀ f ∈ sec.fields,
        isEmptyVal (lookupKV prev (keyFor sec.id f.name)) = true →
        lookupKV (reconcile models prev) (keyFor sec.id f.name) = some f.default)
    ∧ (∀ k : String, (∀ sec ∈ models, ∀ f ∈ sec.fields, keyFor sec.id f.name ≠ k) →
        lookupKV (reconcile models prev) k = none)
    ∧ (∀ sec ∈ models, ∀ f ∈ sec.fields,
        isEmptyVal (lookupKV prev (keyFor sec.id f.name)) = false →
        lookupKV (reconcile models prev) (keyFor sec.id f.name)
          = lookupKV prev (keyFor sec.id f.name))
    ∧ (∀ sec ∈ models, ∀ f ∈ sec.fields,
        ∃ v, lookupKV (reconcile models prev) (keyFor sec.id f.name) = some v
          ∧ v ≠ JSVal.vundefined) := by
  have hkey : ∀ sec ∈ models, ∀ f ∈ sec.fields,
      ((fieldPairs models).map Prod.fst).contains (keyFor sec.id f.name) = true := by
    intro sec hs f hf
    exact (contains_eq_true_iff _ _).mpr
      (List.mem_map_of_mem _ (mem_fieldPairs models sec f hs hf))
  refine ⟨?_, ?_, ?_, ?_⟩
  · intro sec hs f hf hempty
    rw [lookupKV_reconcile, if_pos (hkey sec hs f hf)]
    rw [filterMap_key_nodup _ _ _ hnd (mem_fieldPairs models sec f hs hf)]
    simp only [List.foldl_cons, List.foldl_nil]
    rw [defaultFor_eq_default f (hdfl sec hs f hf).1 (hdfl sec hs f hf).2]
    simp [stepVal, hempty]
  · intro k hk
    have hnmem : k ∉ (fieldPairs models).map Prod.fst := by
      intro hc
      obtain ⟨sec, hs, f, hf, hfk⟩ := (mem_fieldPairs_keys models k).mp hc
      exact hk sec hs f hf hfk
    rw [lookupKV_reconcile, if_neg]
    simp only [contains_eq_true_iff]
    exact hnmem
  · intro sec hs f hf hfull
    rw [lookupKV_reconcile, if_pos (hkey sec hs f hf)]
    exact foldl_stepVal_of_not_empty _ _ hfull
  · intro sec hs f hf
    rw [lookupKV_reconcile, if_pos (hkey sec hs f hf)]
    have hds_mem : defaultFor f ∈ (fieldPairs models).filterMap
        (fun q => if q.1 = keyFor sec.id f.name then some q.2 else none) :=
      List.mem_filterMap.mpr ⟨(keyFor sec.id f.name, defaultFor f),
        mem_fieldPairs models sec f hs hf, by simp⟩
    have hne : (fieldPairs models).filterMap
        (fun q => if q.1 = keyFor sec.id f.name then some q.2 else none) ≠ [] := by
      intro hnil; rw [hnil] at hds_mem; simp at hds_mem
    have hnn : ∀ d ∈ (fieldPairs models).filterMap
        (fun q => if q.1 = keyFor sec.id f.name then some q.2 else none),
        d ≠ JSVal.vundefined := by
      intro d hd
      obtain ⟨q, hq, hqd⟩ := List.mem_filterMap.mp hd
      by_cases hqk : q.1 = keyFor sec.id f.name
      · rw [if_pos hqk] at hqd
        injection hqd with hqd
        rw [← hqd]
        exact (fieldPairs_not_nullish models q hq).2
      · rw [if_neg hqk] at hqd
        exact absurd hqd (by simp)
    rcases hres : ((fieldPairs models).filterMap
        (fun q => if q.1 = keyFor sec.id f.name then some q.2 else none)).foldl
        stepVal (lookupKV prev (keyFor sec.id f.name)) with _ | v
    · exact absurd hres (foldl_stepVal_ne_none _ _ hne)
    · refine ⟨v, hres, ?_⟩
      intro hv
      rw [hv] at hres
      exact foldl_stepVal_not_undefined _ _ hnn hne hres

/-- Concrete fixture field for the reconciliation witness. -/
def wField : VarField := {
  name := "Radius", type := "text", label := "Radius",
  default := JSVal.vstr "1.5", options := none, min := none, max := none,
  step := none, placeholder := none }

/-- Concrete fixture model for the reconciliation witness. -/
def wModel : SectionModel := {
  id := "sec0", title := "W", start := 0, stop := 1, text := "",
  directives := [], fields := [wField], checkVars := [] }

/-- Witness for C1 at a concrete model and the empty store. -/
theorem valueStore_reconciliation_witness :
    lookupKV (reconcile [wModel] []) (keyFor wModel.id wField.name)
      = some wField.default :=
  (valueStore_reconciliation [wModel] [] (by decide) (by decide)).1
    wModel (by decide) wField (by decide) (by decide)

/-! ### C4: the completion evaluator -/

/-- The specification's satisfaction test for one checkmark variable:
present in the external state, and either numerically parseable with a
nonzero value, or not numerically parseable and truthy. -/
def specCheckSat (configVars : Store) (name : String) : Prop :=
  ∃ v, lookupKV configVars name = some v ∧ v ≠ JSVal.vnull ∧ v ≠ JSVal.vundefined ∧
    ((∃ q : ℚ, jsToNumber v = .fin q ∧ q ≠ 0) ∨
     (isFiniteB (jsToNumber v) = false ∧ jsTruthy v = true))

theorem checkVar_sat_iff (configVars : Store) (nm : String) :
    (match lookupKV configVars nm with
      | none => false
      | some v =>
        if v == JSVal.vundefined || v == JSVal.vnull then false
        else
          match jsToNumber v with
          | .fin q => q != 0
          | _ => jsTruthy v) = true ↔ specCheckSat configVars nm := by
  cases hl : lookupKV configVars nm with
  | none => simp [specCheckSat, hl]
  | some v =>
    by_cases hu : v = JSVal.vundefined
    · subst hu; simp [specCheckSat, hl]
    · by_cases hn : v = JSVal.vnull
      · subst hn; simp [specCheckSat, hl]
      · cases htn : jsToNumber v with
        | fin q => simp [specCheckSat, hl, hu, hn, htn, isFiniteB]
        | inf => simp [specCheckSat, hl, hu, hn, htn, isFiniteB]
        | negInf => simp [specCheckSat, hl, hu, hn, htn, isFiniteB]
        | nan => simp [specCheckSat, hl, hu, hn, htn, isFiniteB]

/-- Completion-evaluator fixture: one checkmark variable. -/
def c4Sec : SectionModel := {
  id := "sec0", title := "Circle", start := 0, stop := 1, text := "",
  directives := [], fields := [], checkVars := ["RanCircle"] }

/-- Completion-evaluator fixture: zero checkmark variables. -/
def c4SecNone : SectionModel := {
  id := "sec0", title := "Circle", start := 0, stop := 1, text := "",
  directives := [], fields := [], checkVars := [] }

/-- C4: a section is complete iff its checkmark list is non-empty and
some listed variable satisfies the external-state test; a single
checkmark variable with external value "0" yields incomplete and "1"
complete, and zero checkmark variables are never complete. -/
theorem completion_evaluator :
    (∀ (sec : SectionModel) (configVars : Store),
      isSectionComplete sec configVars = true ↔
        sec.checkVars ≠ [] ∧ ∃ name ∈ sec.checkVars, specCheckSat configVars name)
    ∧ isSectionComplete c4Sec [("RanCircle", JSVal.vstr "0")] = false
    ∧ isSectionComplete c4Sec [("RanCircle", JSVal.vstr "1")] = true
    ∧ (∀ configVars : Store, isSectionComplete c4SecNone configVars = false) := by
  refine ⟨?_, by decide, by decide, fun _ => rfl⟩
  intro sec configVars
  unfold isSectionComplete
  rcases hcv : sec.checkVars with _ | ⟨n0, rest⟩
  · simp
  · simp only [List.isEmpty_cons, Bool.false_eq_true, if_false, ne_eq,
      reduceCtorEq, not_false_eq_true, true_and]
    rw [List.any_eq_true]
    constructor
    · rintro ⟨nm, hmem, hpred⟩
      exact ⟨nm, hmem, (checkVar_sat_iff configVars nm).mp hpred⟩
    · rintro ⟨nm, hmem, hsat⟩
      exact ⟨nm, hmem, (checkVar_sat_iff configVars nm).mpr hsat⟩

/-! ### C5: headerless text yields one implicit section -/

theorem findHeaders_nil (ls : List String) (i : Nat)
    (h : ∀ l ∈ ls, matchHeader l = none) : findHeaders ls i = [] := by
  induction ls generalizing i with
  | nil => rfl
  | cons l rest ih =>
    unfold findHeaders
    rw [h l (by simp)]
    exact ih (i + 1) (fun x hx => h x (by simp [hx]))

/-- C5: when no line matches the header pattern, the splitter returns
exactly one section, `sec0` titled "Main", spanning the whole text. -/
theorem headerless_single_section (code : String)
    (h : ∀ l ∈ splitLines code, matchHeader l = none) :
    parseSections code
      = [{ id := "sec0", title := "Main", start := 0,
           stop := (splitLines code).length, text := code }] := by
  simp only [parseSections]
  rw [findHeaders_nil _ 0 h]
  simp

/-- Witness for C5 at a concrete header-free text. -/
theorem headerless_single_section_witness :
    parseSections "MS, &FeedRate\nJZ, 0.25"
      = [{ id := "sec0", title := "Main", start := 0,
           stop := (splitLines "MS, &FeedRate\nJZ, 0.25").length,
           text := "MS, &FeedRate\nJZ, 0.25" }] :=
  headerless_single_section _ (by decide)

/-! ### C2: section splitter reconstruction -/

/-- The line sequence obtained by concatenating, in order, each
section's header line (when it has one) followed by the lines of its
span — the specification's "text spans with the header lines
reinserted". -/
def reconLines (lines : List String) (secs : List Sec) : List String :=
  secs.flatMap (fun s =>
    (if s.start = 0 then [] else [lines.getD (s.start - 1) ""]) ++
    ((lines.drop s.start).take (s.stop - s.start)))

/-- The reconstruction as a string. -/
def reconString (code : String) : String :=
  String.intercalate "\n" (reconLines (splitLines code) (parseSections code))

/-- Well-formed header position list: positions are at least `lo`,
strictly increasing, and within the line count. -/
inductive HdrChain (lines : List String) : Nat → List (Nat × String) → Prop
  | nil (lo : Nat) : HdrChain lines lo []
  | cons (lo l : Nat) (t : String) (rest : List (Nat × String)) :
      lo ≤ l → l < lines.length → HdrChain lines (l + 1) rest →
      HdrChain lines lo ((l, t) :: rest)

theorem hdrChain_mono {lines : List String} {lo lo' : Nat} {hs : List (Nat × String)}
    (h : HdrChain lines lo hs) (hle : lo' ≤ lo) : HdrChain lines lo' hs := by
  cases h with
  | nil => exact .nil lo'
  | cons lo l t rest h1 h2 h3 => exact .cons lo' l t rest (le_trans hle h1) h2 h3

theorem findHeaders_chain (lines : List String) :
    ∀ (ls : List String) (i : Nat), ls = lines.drop i →
      HdrChain lines i (findHeaders ls i) := by
  intro ls
  induction ls with
  | nil => intro i _; exact .nil i
  | cons l rest ih =>
    intro i hdrop
    have hlt : i < lines.length := by
      by_contra hc
      push_neg at hc
      rw [List.drop_eq_nil_of_le hc] at hdrop
      exact List.cons_ne_nil l rest hdrop
    have hrest : rest = lines.drop (i + 1) := by
      have h2 := List.tail_drop lines i
      rw [← hdrop] at h2
      simpa using h2
    unfold findHeaders
    cases matchHeader l with
    | some t => exact .cons i i t _ (le_refl i) hlt (ih (i + 1) hrest)
    | none => exact hdrChain_mono (ih (i + 1) hrest) (Nat.le_succ i)


theorem mkSections_recon (lines : List String) :
    ∀ (rest : List (Nat × String)) (l : Nat) (t : String) (i lo : Nat),
      HdrChain lines lo ((l, t) :: rest) →
      reconLines lines (mkSections lines lines.length i ((l, t) :: rest))
        = lines.drop l := by
  intro rest
  induction rest with
  | nil =>
    intro l t i lo hch
    cases hch with
    | cons _ _ _ _ h1 h2 h3 =>
      show ((if l + 1 = 0 then [] else [lines.getD (l + 1 - 1) ""]) ++
          ((lines.drop (l + 1)).take (lines.length - (l + 1)))) ++ [] = lines.drop l
      rw [List.append_nil, if_neg (Nat.succ_ne_zero l), Nat.add_sub_cancel]
      rw [List.take_of_length_le (by rw [List.length_drop])]
      rw [List.getD_eq_getElem lines "" h2]
      exact (List.drop_eq_getElem_cons h2).symm
  | cons p2 rest2 ih =>
    intro l t i lo hch
    obtain ⟨l2, t2⟩ := p2
    cases hch with
    | cons _ _ _ _ h1 h2 h3 =>
      have hl2 : l + 1 ≤ l2 := by cases h3 with | cons _ _ _ _ h1' _ _ => exact h1'
      show ((if l + 1 = 0 then [] else [lines.getD (l + 1 - 1) ""]) ++
          ((lines.drop (l + 1)).take (l2 - (l + 1)))) ++
          reconLines lines (mkSections lines lines.length (i + 1) ((l2, t2) :: rest2))
        = lines.drop l
      rw [ih l2 t2 (i + 1) (l + 1) h3]
      rw [if_neg (Nat.succ_ne_zero l), Nat.add_sub_cancel]
      have hdd : lines.drop l2 = (lines.drop (l + 1)).drop (l2 - (l + 1)) := by
        rw [List.drop_drop]
        congr 1
        omega
      rw [List.getD_eq_getElem lines "" h2]
      rw [List.append_assoc, List.singleton_append, hdd, List.take_append_drop]
      exact (List.drop_eq_getElem_cons h2).symm

theorem mkSections_text (lines : List String) :
    ∀ (hs : List (Nat × String)) (i n : Nat),
      ∀ s ∈ mkSections lines n i hs, s.text = sliceJoin lines s.start s.stop := by
  intro hs
  induction hs with
  | nil => intro i n s hmem; simp [mkSections] at hmem
  | cons p rest ih =>
    intro i n s hmem
    obtain ⟨l, t⟩ := p
    rcases List.mem_cons.mp hmem with hhead | htail
    · subst hhead
      cases rest with
      | nil => rfl
      | cons p2 rest2 => rfl
    · exact ih (i + 1) n s htail

theorem mkSections_bounds (lines : List String) :
    ∀ (hs : List (Nat × String)) (i lo : Nat), HdrChain lines lo hs →
      (∀ s ∈ mkSections lines lines.length i hs,
        s.start ≤ s.stop ∧ s.stop ≤ lines.length)
      ∧ List.Chain' (fun a b => a.stop + 1 = b.start)
          (mkSections lines lines.length i hs) := by
  intro hs
  induction hs with
  | nil => intro i lo _; exact ⟨by simp [mkSections], List.chain'_nil⟩
  | cons p rest ih =>
    intro i lo hch
    obtain ⟨l, t⟩ := p
    cases hch with
    | cons _ _ _ _ h1 h2 h3 =>
      obtain ⟨ihb, ihc⟩ := ih (i + 1) (l + 1) h3
      constructor
      · intro s hmem
        rcases List.mem_cons.mp hmem with hhead | htail
        · subst hhead
          cases rest with
          | nil =>
            exact ⟨Nat.succ_le_of_lt h2, le_refl _⟩
          | cons p2 rest2 =>
            obtain ⟨l2, t2⟩ := p2
            have hl2 : l + 1 ≤ l2 := by
              cases h3 with | cons _ _ _ _ h1' _ _ => exact h1'
            have hl2len : l2 < lines.length := by
              cases h3 with | cons _ _ _ _ _ h2' _ => exact h2'
            exact ⟨hl2, le_of_lt hl2len⟩
        · exact ihb s htail
      · show List.Chain' _ (secFor lines lines.length i l t rest
            :: mkSections lines lines.length (i + 1) rest)
        apply List.chain'_cons'.mpr
        refine ⟨?_, ihc⟩
        intro y hy
        cases rest with
        | nil => simp [mkSections] at hy
        | cons p2 rest2 =>
          obtain ⟨l2, t2⟩ := p2
          have hyeq : secFor lines lines.length (i + 1) l2 t2 rest2 = y := by
            simpa [mkSections] using hy
          subst hyeq
          show (secFor lines lines.length i l t ((l2, t2) :: rest2)).stop + 1
              = (secFor lines lines.length (i + 1) l2 t2 rest2).start
          rfl

/-- C2 (amended): the sections are contiguous, non-overlapping line
ranges; reinserting the header lines and concatenating reconstructs
the lines of the input from the first header line onward (the whole
input when there is no header, in which case the single section's text
is the entire original string).  Content before the first header is
not part of any section. -/
theorem section_splitter_reconstruction (code : String) :
    (match findHeaders (splitLines code) 0 with
     | [] =>
       parseSections code
         = [{ id := "sec0", title := "Main", start := 0,
              stop := (splitLines code).length, text := code }]
       ∧ reconLines (splitLines code) (parseSections code) = splitLines code
     | (h0, _) :: _ =>
       reconLines (splitLines code) (parseSections code)
         = (splitLines code).drop h0
       ∧ ∀ s ∈ parseSections code, s.text = sliceJoin (splitLines code) s.start s.stop)
    ∧ List.Chain' (fun a b => a.stop + 1 = b.start) (parseSections code)
    ∧ (∀ s ∈ parseSections code,
        s.start ≤ s.stop ∧ s.stop ≤ (splitLines code).length) := by
  have hch := findHeaders_chain (splitLines code) (splitLines code) 0 (by simp)
  cases hfh : findHeaders (splitLines code) 0 with
  | nil =>
    have hps : parseSections code
        = [{ id := "sec0", title := "Main", start := 0,
             stop := (splitLines code).length, text := code }] := by
      simp only [parseSections]
      rw [hfh]
      simp
    refine ⟨⟨hps, ?_⟩, ?_, ?_⟩
    · rw [hps]
      show (((if (0 : Nat) = 0 then ([] : List String)
          else [(splitLines code).getD (0 - 1) ""]) ++
          (((splitLines code).drop 0).take ((splitLines code).length - 0))) ++ [])
        = splitLines code
      simp
    · rw [hps]
      exact List.chain'_singleton _
    · rw [hps]
      intro s hmem
      rcases List.mem_cons.mp hmem with hhead | htail
      · subst hhead; exact ⟨Nat.zero_le _, le_refl _⟩
      · simp at htail
  | cons p hrest =>
    obtain ⟨h0, t0⟩ := p
    rw [hfh] at hch
    have hps : parseSections code
        = mkSections (splitLines code) (splitLines code).length 0 ((h0, t0) :: hrest) := by
      simp only [parseSections]
      rw [hfh]
      simp
    obtain ⟨hb, hc⟩ := mkSections_bounds (splitLines code) ((h0, t0) :: hrest) 0 0 hch
    refine ⟨⟨?_, ?_⟩, ?_, ?_⟩
    · rw [hps]
      exact mkSections_recon (splitLines code) hrest h0 t0 0 0 hch
    · rw [hps]
      intro s hmem
      exact mkSections_text (splitLines code) ((h0, t0) :: hrest) 0 _ s hmem
    · rw [hps]; exact hc
    · rw [hps]; exact hb

/-- C2 counterexample: with content before the first header
(text `"x\n' #T\nbody"`), the concatenation of the returned sections
with the header line reinserted is `"' #T\nbody"` — the first line is
lost — so it does not reconstruct the original text. -/
theorem section_splitter_reconstruction_cex :
    reconString "x\n' #T\nbody" = "' #T\nbody"
    ∧ reconString "x\n' #T\nbody" ≠ "x\n' #T\nbody" := by
  constructor
  · decide
  · decide

/-! ### C6: the BitDiameter field-inference scenario -/

/-- The directive line of the field-inference scenario. -/
def c6Line : String :=
  "' @input &BitDiameter type=number min=0.0625 max=1 step=0.001 label=\"Bit Diameter (in)\" default=0.25"

/-- The field descriptor inferred for `BitDiameter` from the scenario
directive line. -/
def c6Field : FieldDesc :=
  inferField "BitDiameter" ((lookupKV (parseDirectivesIn c6Line) "BitDiameter").getD [])

/-- C6: the scenario directive yields a number field labelled
"Bit Diameter (in)" (quotes stripped) with default 0.25, min 0.0625,
max 1 and step 0.001. -/
theorem bitDiameter_scenario :
    c6Field.type = "number"
    ∧ c6Field.label = "Bit Diameter (in)"
    ∧ c6Field.default = JSVal.vnum (.fin (mkRat 1 4))
    ∧ c6Field.min = some (.fin (mkRat 1 16))
    ∧ c6Field.max = some (.fin (mkRat 1 1))
    ∧ c6Field.step = some (.fin (mkRat 1 1000)) := by
  refine ⟨by decide, by decide, by decide, by decide, by decide, by decide⟩

/-! ### C9: implicit substring-based number inference -/

/-- C9: with no `type=` directive, a variable whose lowercased name
contains one of the numeric-hint substrings anywhere is inferred as a
number field. -/
theorem numeric_substring_inference (varName : String) (cfg : Cfg)
    (hty : lookupKV cfg "type" = none)
    (hhint : numericHint (lowerStr varName) = true) :
    (inferField varName cfg).type = "number" := by
  unfold inferField
  simp [hty, strFalsy, hhint]

/-- Witness for C9: the name `Text` contains the substring "x", so it
is inferred as a number field rather than a text field. -/
theorem numeric_substring_inference_witness :
    (inferField "Text" []).type = "number" :=
  numeric_substring_inference "Text" [] rfl (by decide)

/-! ### C3: the preamble compiler -/

/-- The per-field statement exactly as the specification sentence for
the preamble compiler words it: the prompt message is the directive's
`prompt=` attribute whenever that attribute is present, and a numeric
assignment requires the stored value to parse as a finite number. -/
def specStmtClaim (sec : SectionModel) (values : Store) (f : VarField) : String :=
  let val := lookupKV values (keyFor sec.id f.name)
  let cfg := (lookupKV sec.directives f.name).getD []
  if isEmptyVal val = true then
    let msg := match lookupKV cfg "prompt" with
      | some p => doubleQuotes p
      | none => doubleQuotes ("Please input " ++ jsOrStr f.label f.name)
    "DIALOG \"" ++ msg ++ "\", &" ++ f.name
  else
    let v := val.getD JSVal.vundefined
    if f.type = "number" ∧ isFiniteB (jsToNumber v) = true then
      "&" ++ f.name ++ " = " ++ jsToString v
    else if f.type = "checkbox" then
      "&" ++ f.name ++ " = " ++ (if jsTruthy v then "1" else "0")
    else
      "&" ++ f.name ++ " = \"" ++ doubleQuotes (jsToString v) ++ "\""

/-- The per-field statement in the amended wording: the prompt
attribute is used only when it is present and non-empty, and a numeric
assignment requires only that the stored value not parse as NaN. -/
def specStmtAmended (sec : SectionModel) (values : Store) (f : VarField) : String :=
  let val := lookupKV values (keyFor sec.id f.name)
  let cfg := (lookupKV sec.directives f.name).getD []
  if isEmptyVal val = true then
    let msg := doubleQuotes (jsOrStr ((lookupKV cfg "prompt").getD "")
      ("Please input " ++ jsOrStr f.label f.name))
    "DIALOG \"" ++ msg ++ "\", &" ++ f.name
  else
    let v := val.getD JSVal.vundefined
    if f.type = "number" ∧ isNaNb (jsToNumber v) = false then
      "&" ++ f.name ++ " = " ++ jsToString v
    else if f.type = "checkbox" then
      "&" ++ f.name ++ " = " ++ (if jsTruthy v then "1" else "0")
    else
      "&" ++ f.name ++ " = \"" ++ doubleQuotes (jsToString v) ++ "\""

/-- C3 (amended): the compiler emits, per field in order, a DIALOG
prompt for an empty/null/undefined stored value (message: non-empty
prompt attribute, else the generated default), an unquoted assignment
for a number field whose value is not NaN, a 0/1 assignment for a
checkbox field, and otherwise a double-quoted assignment with embedded
quotes doubled. -/
theorem preamble_compiler (sec : SectionModel) (values : Store) :
    buildPreambleForSection sec values = sec.fields.map (specStmtAmended sec values) := by
  unfold buildPreambleForSection
  apply List.map_congr_left
  intro f _
  cases hval : lookupKV values (keyFor sec.id f.name) with
  | none => simp [specStmtAmended, hval, hasVal, isEmptyVal]
  | some v =>
    by_cases hemp : isEmptyVal (some v) = true
    · have hhv : hasVal (some v) = false := by
        rcases (isEmptyVal_some_iff v).mp hemp with h | h | h <;> subst h <;> rfl
      simp [specStmtAmended, hval, hhv, hemp]
    · have hhv : hasVal (some v) = true := by
        cases v <;> simp_all [hasVal, isEmptyVal]
      simp [specStmtAmended, hval, hhv, hemp]

/-- Counterexample fixture: a text field with an empty `prompt=`
attribute and a number field whose stored value is "Infinity". -/
def c3Sec : SectionModel := {
  id := "s", title := "", start := 0, stop := 0, text := "",
  directives := [("A", [("prompt", "")])],
  fields := [
    { name := "A", type := "text", label := "A", default := JSVal.vstr "",
      options := none, min := none, max := none, step := none, placeholder := none },
    { name := "B", type := "number", label := "B", default := JSVal.vstr "",
      options := none, min := none, max := none, step := none, placeholder := none }],
  checkVars := [] }

/-- Counterexample store: `A` absent, `B` holds "Infinity". -/
def c3Vals : Store := [("s::B", JSVal.vstr "Infinity")]

/-- C3 counterexample: with a present-but-empty prompt attribute the
compiler emits the generated default message rather than the (empty)
prompt attribute, and with the stored value "Infinity" — which does
not parse as a *finite* number — it emits the unquoted assignment
`&B = Infinity` rather than a quoted string assignment. -/
theorem preamble_compiler_cex :
    buildPreambleForSection c3Sec c3Vals
      = ["DIALOG \"Please input A\", &A", "&B = Infinity"]
    ∧ c3Sec.fields.map (specStmtClaim c3Sec c3Vals)
      = ["DIALOG \"\", &A", "&B = \"Infinity\""]
    ∧ buildPreambleForSection c3Sec c3Vals
        ≠ c3Sec.fields.map (specStmtClaim c3Sec c3Vals) := by
  refine ⟨by decide, by decide, by decide⟩

/-! ### C8: checkmark parser normalization -/

theorem sigilSplit_spec (cs : List Char) :
    (sigilSplit cs).1 ++ (sigilSplit cs).2 = cs ∧
    ((sigilSplit cs).1 = [] ∨ (sigilSplit cs).1 = ['&'] ∨
     (sigilSplit cs).1 = ['$'] ∨ (sigilSplit cs).1 = ['&', '$']) := by
  unfold sigilSplit
  split <;> simp

theorem dropWhile_eq_self_of (p : Char → Bool) (cs : List Char)
    (h : ∀ c ∈ cs, p c = false) : cs.dropWhile p = cs := by
  cases cs with
  | nil => rfl
  | cons c rest => simp [List.dropWhile, h c (by simp)]

theorem trimChars_eq_self (cs : List Char) (h : ∀ c ∈ cs, isJsWs c = false) :
    trimChars cs = cs := by
  unfold trimChars
  rw [dropWhile_eq_self_of isJsWs cs h,
    dropWhile_eq_self_of isJsWs cs.reverse (fun c hc => h c (List.mem_reverse.mp hc)),
    List.reverse_reverse]

theorem ws_not_nameChar (c : Char) (h : isJsWs c = true) : isNameChar c = false := by
  simp only [isJsWs, Bool.or_eq_true, beq_iff_eq, or_assoc] at h
  rcases h with h | h | h | h | h | h | h | h | h | h <;> subst h <;> decide

theorem nameStart_nameChar (c : Char) (h : isNameStart c = true) : isNameChar c = true := by
  simp only [isNameChar, isNameStart] at *
  simp [h]

theorem nameChar_not_ws (c : Char) (h : isNameChar c = true) : isJsWs c = false := by
  by_contra hc
  rw [Bool.not_eq_false] at hc
  rw [ws_not_nameChar c hc] at h
  exact Bool.false_ne_true h

theorem nameStart_not_ws (c : Char) (h : isNameStart c = true) : isJsWs c = false :=
  nameChar_not_ws c (nameStart_nameChar c h)

theorem nameStart_ne_amp (c : Char) (h : isNameStart c = true) : c ≠ '&' := by
  intro hc
  subst hc
  simp [isNameStart, isAsciiLetter] at h

theorem lineCheckmark_shape (seg : List Char) (raw : String)
    (h : lineCheckmark seg = some raw) :
    ∃ sig d nm, raw.data = sig ++ d :: nm
      ∧ (sig = [] ∨ sig = ['&'] ∨ sig = ['$'] ∨ sig = ['&', '$'])
      ∧ isNameStart d = true ∧ ∀ c ∈ nm, isNameChar c = true := by
  unfold lineCheckmark at h
  repeat split at h
  all_goals try exact (Option.noConfusion h)
  rename_i w rest0 heq1 hws xx sig d r sigeq hstart hall
  injection h with h
  refine ⟨sig, d, r.takeWhile isNameChar, by rw [← h], ?_, hstart,
    fun x hx => List.mem_takeWhile_imp hx⟩
  have hs := (sigilSplit_spec ((w :: rest0).dropWhile isJsWs)).2
  rw [sigeq] at hs
  simpa using hs

theorem nameStart_not_sigil (c : Char) (h : isNameStart c = true) :
    (c == '$' || c == '&') = false := by
  simp only [Bool.or_eq_false_iff, beq_eq_false_iff_ne, ne_eq]
  constructor <;> intro hc <;> subst hc <;> simp [isNameStart, isAsciiLetter] at h

theorem mem_parseCheckmarks_aux (segs : List (List Char)) (acc : List String) (name : String)
    (h : name ∈ segs.foldl (fun acc seg =>
      match lineCheckmark seg with
      | some raw => acc ++ [stripSigil (jsTrim raw)]
      | none => acc) acc) :
    name ∈ acc ∨ ∃ seg ∈ segs, ∃ raw, lineCheckmark seg = some raw
      ∧ name = stripSigil (jsTrim raw) := by
  induction segs generalizing acc with
  | nil => exact Or.inl h
  | cons seg rest ih =>
    simp only [List.foldl_cons] at h
    cases hlc : lineCheckmark seg with
    | none =>
      rw [hlc] at h
      rcases ih _ h with hacc | ⟨s2, hs2, raw, hraw, hname⟩
      · exact Or.inl hacc
      · exact Or.inr ⟨s2, by simp [hs2], raw, hraw, hname⟩
    | some raw =>
      rw [hlc] at h
      rcases ih _ h with hacc | ⟨s2, hs2, raw2, hraw2, hname2⟩
      · rcases List.mem_append.mp hacc with h1 | h2
        · exact Or.inl h1
        · have hx : name = stripSigil (jsTrim raw) := by simpa using h2
          exact Or.inr ⟨seg, by simp, raw, hlc, hx⟩
      · exact Or.inr ⟨s2, by simp [hs2], raw2, hraw2, hname2⟩

/-- C8 (amended): normalization strips exactly one leading sigil from
each matched token (whose sigil prefix the pattern allows to be empty,
`&`, `$`, or `&$`), so no returned name ever begins with `&`; a token
written with both sigils yields a name that still begins with `$`. -/
theorem checkmark_no_amp (text : String) (name : String)
    (h : name ∈ parseCheckmarksIn text) : name.data.head? ≠ some '&' := by
  unfold parseCheckmarksIn at h
  rcases mem_parseCheckmarks_aux _ _ _ h with hacc | ⟨seg, _, raw, hraw, hname⟩
  · simp at hacc
  obtain ⟨sig, d, nm, hdata, hsig, hstart, hnm⟩ := lineCheckmark_shape seg raw hraw
  have hnows : ∀ c ∈ raw.data, isJsWs c = false := by
    intro c hc
    rw [hdata] at hc
    rcases List.mem_append.mp hc with hc | hc
    · rcases hsig with rfl | rfl | rfl | rfl
      · simp at hc
      · have : c = '&' := by simpa using hc
        subst this; decide
      · have : c = '$' := by simpa using hc
        subst this; decide
      · have hc2 : c = '&' ∨ c = '$' := by simpa using hc
        rcases hc2 with rfl | rfl <;> decide
    · rcases List.mem_cons.mp hc with rfl | hc
      · exact nameStart_not_ws _ hstart
      · exact nameChar_not_ws c (hnm c hc)
  have htrim : jsTrim raw = raw := by
    unfold jsTrim
    rw [trimChars_eq_self raw.data hnows]
  rw [hname, htrim]
  rcases hsig with rfl | rfl | rfl | rfl
  · rw [List.nil_append] at hdata
    unfold stripSigil
    rw [hdata]
    simp [nameStart_not_sigil d hstart, hdata, nameStart_ne_amp d hstart]
  · unfold stripSigil
    rw [hdata]
    simp [nameStart_ne_amp d hstart]
  · unfold stripSigil
    rw [hdata]
    simp [nameStart_ne_amp d hstart]
  · unfold stripSigil
    rw [hdata]
    simp

/-- C8 counterexample: the token `&$Ran` matches the checkmark pattern
and only its `&` is stripped, so the returned name `$Ran` still begins
with a sigil. -/
theorem checkmark_parser_cex :
    parseCheckmarksIn "' @checkmark &$Ran" = ["$Ran"]
    ∧ "$Ran".data.head? = some '$' := by
  refine ⟨by decide, by decide⟩

/-- Witness for C8 at a concrete text. -/
theorem checkmark_no_amp_witness : ("X" : String).data.head? ≠ some '&' :=
  checkmark_no_amp "' @checkmark &X" "X" (by decide)

/-! ### C10: directive lines self-register their variable -/

theorem splitTerm_spec (cs : List Char) :
    ∃ tail, splitTerm cs = (cs.takeWhile (fun c => !(isTermChar c))) :: tail
      ∧ ∀ seg ∈ tail, ∃ pre suf, cs = pre ++ seg ++ suf := by
  induction cs with
  | nil => exact ⟨[], rfl, by simp⟩
  | cons c rest ih =>
    obtain ⟨tailR, hR, hinf⟩ := ih
    by_cases ht : isTermChar c = true
    · refine ⟨splitTerm rest, ?_, ?_⟩
      · simp [splitTerm, ht, List.takeWhile_cons]
      · intro seg hseg
        rw [hR] at hseg
        rcases List.mem_cons.mp hseg with rfl | hseg
        · exact ⟨[c], rest.dropWhile (fun c => !(isTermChar c)),
            by simp [List.takeWhile_append_dropWhile]⟩
        · obtain ⟨pre, suf, hps⟩ := hinf seg hseg
          exact ⟨c :: pre, suf, by simp [hps]⟩
    · refine ⟨tailR, ?_, ?_⟩
      · simp [splitTerm, ht, List.takeWhile_cons, hR]
      · intro seg hseg
        obtain ⟨pre, suf, hps⟩ := hinf seg hseg
        exact ⟨c :: pre, suf, by simp [hps]⟩

theorem splitTerm_within (cs : List Char) (seg : List Char) (h : seg ∈ splitTerm cs) :
    ∃ pre suf, cs = pre ++ seg ++ suf := by
  obtain ⟨tail, heq, hinf⟩ := splitTerm_spec cs
  rw [heq] at h
  rcases List.mem_cons.mp h with rfl | h
  · exact ⟨[], cs.dropWhile (fun c => !(isTermChar c)),
      by simp [List.takeWhile_append_dropWhile]⟩
  · exact hinf seg h

theorem takeWhile_middle (p : Char → Bool) (l1 l2 : List Char) (a : Char)
    (h1 : ∀ c ∈ l1, p c = true) (h2 : p a = false) :
    (l1 ++ a :: l2).takeWhile p = l1 ∧ (l1 ++ a :: l2).dropWhile p = a :: l2 := by
  induction l1 with
  | nil => simp [List.takeWhile_cons, List.dropWhile_cons, h2]
  | cons c r ih =>
    have hc : p c = true := h1 c (by simp)
    obtain ⟨iht, ihd⟩ := ih (fun x hx => h1 x (by simp [hx]))
    simp [List.takeWhile_cons, List.dropWhile_cons, hc, iht, ihd]

theorem dropWhile_append_not (p : Char → Bool) (l1 l2 : List Char) (a : Char)
    (h : p a = false) :
    (l1 ++ a :: l2).dropWhile p = l1.dropWhile p ++ a :: l2 := by
  induction l1 with
  | nil => simp [List.dropWhile_cons, h]
  | cons c r ih =>
    by_cases hc : p c = true
    · simp [List.dropWhile_cons, hc, ih]
    · simp [List.dropWhile_cons, hc]

theorem scanVars_amp_hit (c2 : Char) (rest2 : List Char) (h : isNameStart c2 = true) :
    scanVars ('&' :: c2 :: rest2)
      = String.mk (c2 :: rest2.takeWhile isNameChar)
        :: scanVars (rest2.dropWhile isNameChar) := by
  conv_lhs => unfold scanVars
  simp [h]

theorem scanVars_amp_miss (c2 : Char) (rest2 : List Char) (h : isNameStart c2 = false) :
    scanVars ('&' :: c2 :: rest2) = scanVars (c2 :: rest2) := by
  conv_lhs => unfold scanVars
  simp [h]

theorem scanVars_other (c : Char) (rest : List Char) (h : ¬c = '&') :
    scanVars (c :: rest) = scanVars rest := by
  conv_lhs => unfold scanVars
  simp [h]

theorem scanVars_complete (d : Char) (nm : List Char)
    (hd : isNameStart d = true) (hnm : ∀ c ∈ nm, isNameChar c = true) :
    ∀ (n : Nat) (cs pre suf : List Char) (w : Char), cs.length ≤ n →
      cs = pre ++ '&' :: d :: (nm ++ w :: suf) → isNameChar w = false →
      String.mk (d :: nm) ∈ scanVars cs := by
  intro n
  induction n with
  | zero =>
    intro cs pre suf w hlen hcs _
    subst hcs; simp at hlen
  | succ n ih =>
    intro cs pre suf w hlen hcs hw
    subst hcs
    cases pre with
    | nil =>
      rw [List.nil_append, scanVars_amp_hit d _ hd,
        (takeWhile_middle isNameChar nm suf w hnm hw).1]
      exact List.mem_cons_self _ _
    | cons p pre' =>
      simp only [List.cons_append, List.length_cons] at hlen
      by_cases hamp : p = '&'
      · subst hamp
        cases pre' with
        | nil =>
          rw [List.cons_append, List.nil_append,
            scanVars_amp_miss '&' _ (by decide)]
          exact ih _ [] suf w
            (by simp only [List.length_append, List.length_cons] at hlen ⊢; omega) rfl hw
        | cons q pre'' =>
          by_cases hq : isNameStart q = true
          · rw [List.cons_append, List.cons_append, scanVars_amp_hit q _ hq]
            apply List.mem_cons_of_mem
            rw [dropWhile_append_not isNameChar pre'' _ '&' (by decide)]
            refine ih _ (pre''.dropWhile isNameChar) suf w ?_ rfl hw
            have hdw := length_dropWhile_le' isNameChar pre''
            simp only [List.length_append, List.length_cons] at hlen ⊢
            omega
          · rw [List.cons_append, List.cons_append,
              scanVars_amp_miss q _ (by simpa using hq)]
            exact ih _ (q :: pre'') suf w
              (by simp only [List.length_append, List.length_cons] at hlen ⊢; omega) rfl hw
      · rw [List.cons_append, scanVars_other p _ hamp]
        exact ih _ pre' suf w
          (by simp only [List.length_append, List.length_cons] at hlen ⊢; omega) rfl hw

theorem mem_dedupGo (l : List String) : ∀ (seen : List String) (x : String),
    x ∈ l → x ∉ seen → x ∈ dedupGo seen l := by
  induction l with
  | nil => intro seen x hx _; simp at hx
  | cons y rest ih =>
    intro seen x hx hseen
    unfold dedupGo
    by_cases hy : y ∈ seen
    · rw [if_pos hy]
      rcases List.mem_cons.mp hx with rfl | hx
      · exact absurd hy hseen
      · exact ih seen x hx hseen
    · rw [if_neg hy]
      rcases List.mem_cons.mp hx with rfl | hx
      · exact List.mem_cons_self _ _
      · by_cases hxy : x = y
        · subst hxy; exact List.mem_cons_self _ _
        · exact List.mem_cons_of_mem _ (ih (y :: seen) x hx (by simp [hxy, hseen]))

theorem stripCI_decomp (pat cs r : List Char) (h : stripCI pat cs = some r) :
    cs = cs.take pat.length ++ r := by
  unfold stripCI at h
  split at h
  · injection h with h
    rw [← h]
    exact (List.take_append_drop _ _).symm
  · exact Option.noConfusion h

theorem matchDirective_occ (seg : List Char) (v : String) (tail : List Char)
    (h : matchDirective seg = some (v, tail)) :
    ∃ (pre post : List Char) (w2 : Char) (d : Char) (nm : List Char),
      seg = pre ++ '&' :: d :: (nm ++ w2 :: post)
      ∧ isJsWs w2 = true ∧ v.data = d :: nm
      ∧ isNameStart d = true ∧ ∀ c ∈ nm, isNameChar c = true := by
  unfold matchDirective at h
  repeat split at h
  all_goals try exact (Option.noConfusion h)
  rename_i x4 c rest heq0 hmark x3 x2 w wrest heq1 hw x1 d r heq2 hstart x0 w2 rest3 heq3 hws2
  injection h with h
  have hv : String.mk (d :: r.takeWhile isNameChar) = v := congrArg Prod.fst h
  refine ⟨seg.takeWhile isJsWs ++ c ::
      (rest.takeWhile isJsWs ++ (((rest.dropWhile isJsWs).take ("@input".data.length)) ++
        (w :: wrest).takeWhile isJsWs)),
    rest3, w2, d, r.takeWhile isNameChar, ?_, hws2, by rw [← hv], hstart,
    fun x hx => List.mem_takeWhile_imp hx⟩
  have e0 : seg = seg.takeWhile isJsWs ++ (c :: rest) := by
    conv_lhs => rw [← List.takeWhile_append_dropWhile (p := isJsWs) (l := seg)]
    rw [heq0]
  have e2 : rest.dropWhile isJsWs
      = (rest.dropWhile isJsWs).take ("@input".data.length) ++ (w :: wrest) :=
    stripCI_decomp _ _ _ heq1
  have e3 : w :: wrest = (w :: wrest).takeWhile isJsWs ++ ('&' :: d :: r) := by
    conv_lhs => rw [← List.takeWhile_append_dropWhile (p := isJsWs) (l := w :: wrest)]
    rw [heq2]
  have e4 : r = r.takeWhile isNameChar ++ (w2 :: rest3) := by
    conv_lhs => rw [← List.takeWhile_append_dropWhile (p := isNameChar) (l := r)]
    rw [heq3]
  have E : seg = seg.takeWhile isJsWs ++ (c ::
      (rest.takeWhile isJsWs ++ (((rest.dropWhile isJsWs).take ("@input".data.length)) ++
        ((w :: wrest).takeWhile isJsWs ++ ('&' :: d ::
          (r.takeWhile isNameChar ++ (w2 :: rest3))))))) := by
    rw [e0]
    congr 1
    congr 1
    conv_lhs => rw [← List.takeWhile_append_dropWhile (p := isJsWs) (l := rest)]
    congr 1
    conv_lhs => rw [e2]
    congr 1
    conv_lhs => rw [e3]
    rw [← e4]
  conv_lhs => rw [E]
  simp [List.append_assoc]

theorem lookup_parseDirectives_mem (segs : List (List Char)) :
    ∀ (m : List (String × Cfg)) (v : String),
      lookupKV (segs.foldl (fun m seg =>
        match matchDirective seg with
        | some (v, tail) => setVal m v (parseAttrs tail)
        | none => m) m) v ≠ none →
      lookupKV m v ≠ none
        ∨ ∃ seg ∈ segs, ∃ nm tail, matchDirective seg = some (nm, tail) ∧ nm = v := by
  induction segs with
  | nil => intro m v h; exact Or.inl h
  | cons seg rest ih =>
    intro m v h
    simp only [List.foldl_cons] at h
    cases hmd : matchDirective seg with
    | none =>
      rw [hmd] at h
      rcases ih _ _ h with h1 | ⟨s2, hs2, nm, tl, hm, hnm⟩
      · exact Or.inl h1
      · exact Or.inr ⟨s2, by simp [hs2], nm, tl, hm, hnm⟩
    | some p =>
      obtain ⟨nm0, tl0⟩ := p
      rw [hmd] at h
      rcases ih _ _ h with h1 | ⟨s2, hs2, nm, tl, hm, hnm⟩
      · by_cases hveq : nm0 = v
        · exact Or.inr ⟨seg, by simp, nm0, tl0, hmd, hveq⟩
        · rw [lookupKV_setVal_ne _ _ _ _ hveq] at h1
          exact Or.inl h1
      · exact Or.inr ⟨s2, by simp [hs2], nm, tl, hm, hnm⟩

/-- C10: variable extraction is lexical over the whole section text, so
the `&Var` token of an `@input` directive line itself registers the
variable: every variable with a directive has a field descriptor in the
section's model. -/
theorem directive_vars_have_fields (s : Sec) (v : String)
    (h : lookupKV (buildModel s).directives v ≠ none) :
    ∃ f ∈ (buildModel s).fields, f.name = v := by
  have hdir : lookupKV (parseDirectivesIn s.text) v ≠ none := h
  unfold parseDirectivesIn scanLines at hdir
  rcases lookup_parseDirectives_mem _ _ _ hdir with hnil | ⟨seg, hseg, nm0, tl0, hmd, hnm0⟩
  · simp [lookupKV] at hnil
  rw [hnm0] at hmd
  obtain ⟨pre, post, w2, d, nmv, hseg_eq, hws2, hvdata, hstart, hnmv⟩ :=
    matchDirective_occ seg v tl0 hmd
  obtain ⟨pre2, suf2, hwithin⟩ := splitTerm_within s.text.data seg hseg
  have hocc : s.text.data = (pre2 ++ pre) ++ '&' :: d :: (nmv ++ w2 :: (post ++ suf2)) := by
    rw [hwithin, hseg_eq]
    simp [List.append_assoc]
  have hscan : String.mk (d :: nmv) ∈ scanVars s.text.data :=
    scanVars_complete d nmv hstart hnmv s.text.data.length _ _ _ w2 (le_refl _) hocc
      (ws_not_nameChar w2 hws2)
  have hveq : String.mk (d :: nmv) = v := by
    rw [← hvdata]
  have hv : v ∈ extractVariables s.text := by
    unfold extractVariables
    rw [← hveq]
    exact mem_dedupGo _ [] _ hscan (by simp)
  refine ⟨mkField v ((lookupKV (parseDirectivesIn s.text) v).getD []), ?_, rfl⟩
  show mkField v _ ∈ (buildModel s).fields
  unfold buildModel
  exact List.mem_map.mpr ⟨v, hv, rfl⟩

/-- Fixture section for the C10 witness. -/
def c10Sec : Sec := {
  id := "sec0", title := "T", start := 0, stop := 1,
  text := "' @input &Depth type=number" }

/-- Witness for C10: a directive-only section still yields a field for
its variable. -/
theorem directive_vars_have_fields_witness :
    ∃ f ∈ (buildModel c10Sec).fields, f.name = "Depth" :=
  directive_vars_have_fields c10Sec "Depth" (by decide)
